import Mathlib

/-!
Verification of the query-windowing and log-stitching engine of
`kubectl-must-gather` (Go).  The Go sources are embedded shallowly:

* strings are handled as `List Char` (UTF-8 byte order on valid UTF-8
  coincides with code-point order, so Go's byte-wise string comparison is
  `List Char` lexicographic comparison);
* `time.Time` values are modelled as `Int` nanoseconds since Go's zero
  time (January 1, year 1, 00:00:00 UTC), so Go's `Time.IsZero` is `= 0`
  and `Time.Before` is `<`;
* `time.Duration` is `Int` nanoseconds (the claims never exercise int64
  overflow, which is left unmodelled);
* fallible functions return `Except String`/`Option`;
* Go's `sort.Slice(xs, less)` is modelled as insertion sort with respect
  to the non-strict relation `fun a b => less b a = false`;
* the tar archive is an artifact list; Go map iteration order is
  randomized, so stitch buffers are kept as keyed accumulators rather
  than flattened into the artifact list.
-/

/-! ## Character and string helpers (models of Go stdlib behavior) -/

/-- `unicode.IsSpace` for the Latin-1 range (the spec and claims only
exercise ASCII identifiers; wider Unicode space classes are unmodelled). -/
def goSpace (c : Char) : Bool :=
  c = ' ' || c = '\t' || c = '\n' || c = '\x0b' || c = '\x0c' || c = '\r' ||
  c = '\x85' || c = '\xa0'

/-- `strings.TrimSpace` on a character list. -/
def trimChars (cs : List Char) : List Char :=
  ((cs.dropWhile goSpace).reverse.dropWhile goSpace).reverse

/-- `strings.TrimSpace`. -/
def trimGo (s : String) : String :=
  String.mk (trimChars s.toList)

/-- Go byte-wise string `<` on character lists. -/
def charsLt : List Char → List Char → Bool
  | [], [] => false
  | [], _ :: _ => true
  | _ :: _, [] => false
  | a :: as, b :: bs =>
    if a < b then true else if b < a then false else charsLt as bs

/-- Go byte-wise string comparison `a < b`. -/
def strLt (a b : String) : Bool :=
  charsLt a.toList b.toList

/-- `strings.Split(s, ",")` on a character list.  Splitting the empty
string yields one empty field, as in Go. -/
def splitComma : List Char → List (List Char)
  | [] => [[]]
  | c :: rest =>
    match splitComma rest with
    | [] => [[c]]
    | g :: gs => if c = ',' then [] :: g :: gs else (c :: g) :: gs

/-- Decimal value of a big-endian digit-character run (used to model the
numeric conversions done by `strconv`/`time.ParseDuration`/regexp
captures). -/
def charsVal (cs : List Char) : Nat :=
  cs.foldl (fun a c => a * 10 + (c.toNat - 48)) 0

/-- Decimal digit characters of `n` (big-endian), by repeated division;
the fuel argument is only a structural-termination bound. -/
def digitCharsAux : Nat → Nat → List Char
  | 0, _ => []
  | fuel + 1, n =>
    if n = 0 then [] else digitCharsAux fuel (n / 10) ++ [Char.ofNat (48 + n % 10)]

/-- Decimal digit characters of `n`, as printed by `fmt.Sprintf("%d", n)`
for non-negative `n`. -/
def digitChars (n : Nat) : List Char :=
  if n = 0 then ['0'] else digitCharsAux (n + 1) n

/-! ## `utils.SafeFileName` (src/unnamed/part_003, lines 1131-1141) -/

/-- The character class `[A-Za-z0-9_.\-]` of the sanitizing regexp. -/
def allowedChar (c : Char) : Bool :=
  c.isUpper || c.isLower || c.isDigit || c = '_' || c = '.' || c = '-'

/-- `utils.SafeFileName`: trim space, replace `.` and `/` by `_`, replace
every character outside `[A-Za-z0-9_.\-]` by `_`, and map an empty result
to `"unnamed"`. -/
def SafeFileName (name : String) : String :=
  let cs := trimChars name.toList
  let cs := cs.map fun c => if c = '.' then '_' else c
  let cs := cs.map fun c => if c = '/' then '_' else c
  let cs := cs.map fun c => if allowedChar c then c else '_'
  if cs.isEmpty then "unnamed" else String.mk cs

/-- The per-character pipeline applied by `SafeFileName` after trimming. -/
def sanitizeChar (c : Char) : Char :=
  let c := if c = '.' then '_' else c
  let c := if c = '/' then '_' else c
  if allowedChar c then c else '_'

/-- Characters that can appear in a sanitized name: the allowed class
without `.` (which is always replaced). -/
def sanitizedChar (c : Char) : Bool :=
  c.isUpper || c.isLower || c.isDigit || c = '_' || c = '-'

theorem safeFileName_eq (name : String) :
    SafeFileName name =
      (if trimChars name.toList = [] then "unnamed"
       else String.mk ((trimChars name.toList).map sanitizeChar)) := by
  unfold SafeFileName
  dsimp only
  rw [List.map_map, List.map_map]
  generalize trimChars name.toList = l
  cases l with
  | nil => rfl
  | cons a t => rfl

theorem sanitizedChar_sanitizeChar (c : Char) : sanitizedChar (sanitizeChar c) = true := by
  by_cases h1 : c = '.'
  · subst h1; decide
  · by_cases h2 : c = '/'
    · subst h2; decide
    · unfold sanitizeChar
      simp only [h1, h2, if_false]
      by_cases h3 : allowedChar c = true
      · simp only [h3, if_true]
        unfold allowedChar at h3
        unfold sanitizedChar
        simp only [Bool.or_eq_true, decide_eq_true_eq] at h3 ⊢
        tauto
      · have h3' : allowedChar c = false := by
          cases hb : allowedChar c with
          | false => rfl
          | true => exact absurd hb h3
        simp only [h3', Bool.false_eq_true, if_false]
        decide

theorem sanitizeChar_of_sanitized {c : Char} (h : sanitizedChar c = true) :
    sanitizeChar c = c := by
  have hdot : c ≠ '.' := by rintro rfl; exact absurd h (by decide)
  have hslash : c ≠ '/' := by rintro rfl; exact absurd h (by decide)
  have hallowed : allowedChar c = true := by
    unfold sanitizedChar at h
    unfold allowedChar
    simp only [Bool.or_eq_true, decide_eq_true_eq] at h ⊢
    tauto
  unfold sanitizeChar
  simp only [hdot, hslash, if_false, hallowed, if_true]

theorem goSpace_of_sanitized {c : Char} (h : sanitizedChar c = true) :
    goSpace c = false := by
  cases hg : goSpace c with
  | false => rfl
  | true =>
    exfalso
    unfold goSpace at hg
    simp only [Bool.or_eq_true, decide_eq_true_eq] at hg
    rcases hg with (((((((rfl | rfl) | rfl) | rfl) | rfl) | rfl) | rfl) | rfl) <;>
      exact absurd h (by decide)

theorem dropWhile_eq_self_of_none {p : Char → Bool} {l : List Char}
    (h : ∀ c ∈ l, p c = false) : l.dropWhile p = l := by
  cases l with
  | nil => rfl
  | cons a l => simp [List.dropWhile_cons, h a (by simp)]

theorem trimChars_eq_self {l : List Char} (h : ∀ c ∈ l, goSpace c = false) :
    trimChars l = l := by
  unfold trimChars
  rw [dropWhile_eq_self_of_none h, dropWhile_eq_self_of_none, List.reverse_reverse]
  intro c hc
  exact h c (by simpa using hc)

theorem toList_mk (cs : List Char) : (String.mk cs).toList = cs := rfl

instance exceptDecEq {α β : Type} [DecidableEq α] [DecidableEq β] :
    DecidableEq (Except α β) := fun a b =>
  match a, b with
  | .error x, .error y =>
    if h : x = y then .isTrue (congrArg Except.error h)
    else .isFalse fun he => h (Except.error.inj he)
  | .ok x, .ok y =>
    if h : x = y then .isTrue (congrArg Except.ok h)
    else .isFalse fun he => h (Except.ok.inj he)
  | .error _, .ok _ => .isFalse fun he => Except.noConfusion he
  | .ok _, .error _ => .isFalse fun he => Except.noConfusion he

/-! ## Go duration strings
(`utils.ISO8601Duration`, `utils.ParseISO8601ToDuration`,
src/unnamed/part_003, lines 1106-1175) -/

def nsPerSecond : Int := 1000000000
def fifteenMin : Int := 900000000000
def oneHour : Int := 3600000000000
def twoHours : Int := 7200000000000

/-- Nanoseconds per duration unit, as in `time.ParseDuration`'s unit map. -/
def unitNs (u : List Char) : Option Int :=
  if u = ['n', 's'] then some 1
  else if u = ['u', 's'] then some 1000
  else if u = ['µ', 's'] then some 1000
  else if u = ['m', 's'] then some 1000000
  else if u = ['s'] then some 1000000000
  else if u = ['m'] then some 60000000000
  else if u = ['h'] then some 3600000000000
  else none

/-- The segment loop of `time.ParseDuration`: repeatedly read a digit run
and a unit run.  Fractional quantities and int64 overflow are not
exercised by the spec and are unmodelled (a fraction makes the unit
lookup fail here where Go would accept it). -/
def parseGoDurationLoop : Nat → List Char → Int → Option Int
  | 0, _, _ => none
  | _ + 1, [], acc => some acc
  | fuel + 1, cs, acc =>
    let digits := cs.takeWhile Char.isDigit
    let rest := cs.dropWhile Char.isDigit
    if digits = [] then none
    else
      let unit := rest.takeWhile fun c => !c.isDigit
      let rest2 := rest.dropWhile fun c => !c.isDigit
      match unitNs unit with
      | none => none
      | some mult => parseGoDurationLoop fuel rest2 (acc + (charsVal digits : Int) * mult)

/-- Model of Go `time.ParseDuration` (integer quantities). -/
def parseGoDuration (s : String) : Except String Int :=
  match s.toList with
  | [] => .error "time: invalid duration"
  | c :: rest =>
    let (neg, cs) :=
      if c = '-' then (true, rest) else if c = '+' then (false, rest) else (false, c :: rest)
    if cs = ['0'] then .ok 0
    else if cs = [] then .error "time: invalid duration"
    else
      match parseGoDurationLoop (cs.length + 1) cs 0 with
      | some v => .ok (if neg then -v else v)
      | none => .error "time: invalid duration"

/-- The `fmt.Sprintf("PT%dH%dM%dS", h, m, s)` stage of
`utils.ISO8601Duration`, applied to a whole number of seconds. -/
def isoOfSeconds (secs : Nat) : String :=
  String.mk ('P' :: 'T' :: (digitChars (secs / 3600) ++ 'H' ::
    (digitChars (secs % 3600 / 60) ++ 'M' :: (digitChars (secs % 60) ++ ['S']))))

/-- `utils.ISO8601Duration`: trim; empty is an error; anything starting
with `P`/`p` is assumed to be ISO-8601 already and returned unvalidated;
otherwise parse as a Go duration and re-render as `PT#H#M#S`. -/
def ISO8601Duration (dur : String) : Except String String :=
  let dur := trimGo dur
  if dur = "" then .error "empty duration"
  else if (dur.toList.map Char.toUpper).take 1 = ['P'] then .ok dur
  else
    match parseGoDuration dur with
    | .error e => .error e
    | .ok d =>
      let secs := (if d < 0 then -d else d) / nsPerSecond
      .ok (isoOfSeconds secs.toNat)

/-- Scanner for the regexp `(\d+)U` (`U` one of `H`/`M`/`S`): value of the
leftmost maximal digit run immediately followed by `u`. -/
def findUnitAux (u : Char) : List Char → Option Nat → Option Nat
  | [], _ => none
  | c :: rest, acc =>
    if c.isDigit then findUnitAux u rest (some ((acc.getD 0) * 10 + (c.toNat - 48)))
    else if c = u then
      match acc with
      | some v => some v
      | none => findUnitAux u rest none
    else findUnitAux u rest none

def findUnit (u : Char) (cs : List Char) : Option Nat :=
  findUnitAux u cs none

/-- Index of the first occurrence of `c`, as `strings.Index`. -/
def charIndex (c : Char) : List Char → Option Nat
  | [] => none
  | d :: rest =>
    if d = c then some 0 else (charIndex c rest).map (· + 1)

/-- `utils.ParseISO8601ToDuration`: uppercase and trim, require a `P`
prefix and a `T` designator, then add up the `(\d+)H`, `(\d+)M`, `(\d+)S`
captures of the part after `T` (absent components contribute zero, as
does Go's `if v > 0` guard). -/
def ParseISO8601ToDuration (iso : String) : Except String Int :=
  let cs := (trimChars iso.toList).map Char.toUpper
  if cs.take 1 ≠ ['P'] then .error "not iso8601"
  else
    match charIndex 'T' cs with
    | none => .error "only time components supported"
    | some i =>
      let part := cs.drop (i + 1)
      let hv := (findUnit 'H' part).getD 0
      let mv := (findUnit 'M' part).getD 0
      let sv := (findUnit 'S' part).getD 0
      .ok ((hv : Int) * oneHour + (mv : Int) * 60000000000 + (sv : Int) * nsPerSecond)

/-- The duration-resolution chain at the top of `exportTableData`
(src/unnamed/part_008, lines 283-288): try the ISO string, then the raw
timespan as a Go duration, and fall back to zero. -/
def resolveDuration (timespan iso : String) : Int :=
  match ParseISO8601ToDuration iso with
  | .ok d => d
  | .error _ =>
    match parseGoDuration timespan with
    | .ok d => d
    | .error _ => 0

theorem safeFileName_fixed {l : List Char} (hne : l ≠ [])
    (h : ∀ c ∈ l, sanitizedChar c = true) :
    SafeFileName (String.mk l) = String.mk l := by
  rw [safeFileName_eq, toList_mk,
    trimChars_eq_self (fun c hc => goSpace_of_sanitized (h c hc))]
  have hmap : l.map sanitizeChar = l := by
    conv_rhs => rw [← List.map_id l]
    exact List.map_congr_left fun c hc => sanitizeChar_of_sanitized (h c hc)
  simp [hne, hmap]

/-- C8: `SafeFileName` is idempotent — sanitizing twice equals sanitizing
once — and it replaces `.` and `/` by `_`, replaces characters outside
`[A-Za-z0-9_.-]` by `_`, and maps an empty result to `"unnamed"`. -/
theorem safeFileName_idempotent :
    (∀ x : String, SafeFileName (SafeFileName x) = SafeFileName x) ∧
    SafeFileName "" = "unnamed" ∧ SafeFileName "a.b" = "a_b" ∧
    SafeFileName "a/b" = "a_b" ∧ SafeFileName "a b!" = "a_b_" := by
  refine ⟨fun x => ?_, by decide, by decide, by decide, by decide⟩
  rw [safeFileName_eq x]
  by_cases h : trimChars x.toList = []
  · rw [if_pos h]
    decide
  · rw [if_neg h]
    apply safeFileName_fixed
    · simpa using h
    · intro c hc
      rcases List.mem_map.mp hc with ⟨d, _, rfl⟩
      exact sanitizedChar_sanitizeChar d

/-! ## Configuration, profiles and table resolution
(`Config`/`GetDefaultProfiles`, src/unnamed/part_007, lines 5-43;
`Gatherer.resolveTables`, src/unnamed/part_008, lines 175-226) -/

structure Config where
  workspaceID : String
  timespan : String
  outputFile : String
  tableFilter : String
  profiles : String
  allTables : Bool
  stitchLogs : Bool
  stitchIncludeEvents : Bool
  aiMode : Bool
  aiQuery : String
deriving DecidableEq

def podLogsTables : List String :=
  ["ContainerLogV2", "ContainerLog", "KubeEvents", "KubeMonAgentEvents", "Syslog"]

def inventoryTables : List String :=
  ["KubePodInventory", "KubeNodeInventory", "KubeServices", "KubePVInventory",
   "ContainerInventory", "ContainerImageInventory", "ContainerNodeInventory", "KubeHealth"]

def metricsTables : List String := ["InsightsMetrics", "Perf", "Heartbeat"]

def auditTables : List String := ["AKSControlPlane", "AKSAudit", "AKSAuditAdmin"]

/-- First-seen-order de-duplicating union (the `seen` set + append loops
used by `GetDefaultProfiles` and `resolveTables`). -/
def dedupInto (acc : List String) (ts : List String) : List String :=
  ts.foldl (fun acc t => if t ∈ acc then acc else acc ++ [t]) acc

/-- The derived combined group: `aks-debug = podLogs + inventory + metrics`,
de-duplicated in first-seen order. -/
def aksDebugTables : List String :=
  dedupInto [] (podLogsTables ++ inventoryTables ++ metricsTables)

/-- `GetDefaultProfiles` as a lookup table. -/
def profileTable : List (String × List String) :=
  [("podLogs", podLogsTables), ("inventory", inventoryTables),
   ("metrics", metricsTables), ("audit", auditTables), ("aks-debug", aksDebugTables)]

def lookupProfile (p : String) : Option (List String) :=
  (profileTable.find? fun e => decide (e.1 = p)).map (·.2)

/-- The `--tables` filter split: entries trimmed, empty entries dropped. -/
def splitFilter (s : String) : List String :=
  ((splitComma s.toList).map fun p => String.mk (trimChars p)).filter
    fun p => decide (p ≠ "")

/-- The profile-union loop of `resolveTables`: trim each name, skip empty
and unknown names (unknown names only produce a warning), union the rest
with first-seen de-duplication. -/
def resolveProfilesList (profs : List String) : List String :=
  profs.foldl
    (fun acc p =>
      let p := String.mk (trimChars p.toList)
      if p = "" then acc
      else
        match lookupProfile p with
        | some lst => dedupInto acc lst
        | none => acc)
    []

/-- `Gatherer.resolveTables`: an explicit `--tables` filter replaces the
incoming list; otherwise profiles are unioned when the list is empty and
`--all-tables` is unset; otherwise the default `aks-debug` union applies. -/
def resolveTables (cfg : Config) (tables : List String) : List String :=
  let tables := if cfg.tableFilter ≠ "" then splitFilter cfg.tableFilter else tables
  let tables :=
    if tables = [] ∧ cfg.profiles ≠ "" ∧ cfg.allTables = false then
      resolveProfilesList ((splitComma cfg.profiles.toList).map String.mk)
    else tables
  if tables = [] ∧ cfg.allTables = false then
    dedupInto [] ((lookupProfile "aks-debug").getD [])
  else tables

/-- C3 counterexample: with the export-all flag set and an explicit
target list also supplied, the explicit list overrides the catalog —
the catalog `["A", "B"]` is not used verbatim, contradicting the claim
that the flag overrides the explicit list. -/
theorem resolveTables_allTables_filter_counterexample :
    resolveTables ⟨"", "", "", "T1", "podLogs", true, false, false, false, ""⟩ ["A", "B"]
        = ["T1"] ∧
    (["T1"] : List String) ≠ ["A", "B"] := by decide

/-- C3 amended: when the export-all flag is true and no explicit target
list is supplied, the resolved target list is the catalog verbatim
(group names are still overridden). -/
theorem resolveTables_allTables (cfg : Config) (catalog : List String)
    (hall : cfg.allTables = true) (hfil : cfg.tableFilter = "") :
    resolveTables cfg catalog = catalog := by
  unfold resolveTables
  simp [hall, hfil]

theorem resolveTables_allTables_witness :
    ((⟨"", "", "", "", "podLogs", true, false, false, false, ""⟩ : Config).allTables = true ∧
     (⟨"", "", "", "", "podLogs", true, false, false, false, ""⟩ : Config).tableFilter = "") ∧
    resolveTables ⟨"", "", "", "", "podLogs", true, false, false, false, ""⟩ ["A", "B"]
      = ["A", "B"] :=
  ⟨⟨rfl, rfl⟩, resolveTables_allTables _ ["A", "B"] rfl rfl⟩

/-- C7: resolving the group list `"podLogs,aks-debug"` yields exactly the
de-duplicated union of the podLogs, inventory and metrics groups, with no
duplicate identifiers, in first-seen order (the three groups are
disjoint, so the union is their concatenation). -/
theorem resolveTables_podLogs_aksDebug :
    resolveTables ⟨"", "", "", "", "podLogs,aks-debug", false, false, false, false, ""⟩ []
        = dedupInto [] (podLogsTables ++ inventoryTables ++ metricsTables) ∧
    (dedupInto [] (podLogsTables ++ inventoryTables ++ metricsTables)).Nodup ∧
    dedupInto [] (podLogsTables ++ inventoryTables ++ metricsTables)
        = podLogsTables ++ inventoryTables ++ metricsTables := by decide

/-! ## Window planner
(the chunk loop of `exportTableData`, src/unnamed/part_008, lines 279-325) -/

/-- Chunk size policy: 1 hour if the duration exceeds 2 hours, else 15
minutes (`chunk := time.Hour; if dur <= 2*time.Hour { chunk = 15 * time.Minute }`). -/
def chunkOf (dur : Int) : Int :=
  if dur ≤ twoHours then fifteenMin else oneHour

/-- The window loop `for t0 := start; t0.Before(since); t0 = t0.Add(chunk)`
with `t1 := t0.Add(chunk)` clipped to `since`.  The Go loop has no fuel;
the fuel below is only a structural-termination bound, always supplied
large enough by `planWindows`. -/
def windowsLoop (now chunk : Int) : Nat → Int → List (Int × Int)
  | 0, _ => []
  | fuel + 1, t0 =>
    if t0 < now then (t0, min (t0 + chunk) now) :: windowsLoop now chunk fuel (t0 + chunk)
    else []

/-- The window planning stage of `exportTableData`: `start := now - dur`
(substituting a 2-hour default when `dur == 0`), then the chunk loop. -/
def planWindows (now dur : Int) : List (Int × Int) :=
  let start := if dur = 0 then now - twoHours else now - dur
  windowsLoop now (chunkOf dur) (now - start).toNat start

def ceilDiv (a b : Nat) : Nat := (a + b - 1) / b

theorem ceilDiv_pos_eq {a b : Nat} (ha : 0 < a) (hb : 0 < b) :
    ceilDiv a b = (a - 1) / b + 1 := by
  unfold ceilDiv
  have h1 : a + b - 1 = (a - 1) + b := by omega
  rw [h1, Nat.add_div_right _ hb]

theorem ceilDiv_zero_left {b : Nat} (hb : 0 < b) : ceilDiv 0 b = 0 := by
  unfold ceilDiv
  exact Nat.div_eq_of_lt (by omega)

theorem ceilDiv_step {a b : Nat} (ha : 0 < a) (hb : 0 < b) :
    ceilDiv a b = ceilDiv (a - b) b + 1 := by
  by_cases hab : a ≤ b
  · have h0 : a - b = 0 := by omega
    rw [ceilDiv_pos_eq ha hb, h0, ceilDiv_zero_left hb,
      Nat.div_eq_of_lt (by omega : a - 1 < b)]
  · rw [ceilDiv_pos_eq ha hb, ceilDiv_pos_eq (by omega) hb]
    have h2 : a - 1 = (a - b - 1) + b := by omega
    rw [h2, Nat.add_div_right _ hb]

theorem windowsLoop_length (now chunk : Int) (hc : 0 < chunk) :
    ∀ fuel t0, (now - t0).toNat ≤ fuel →
      (windowsLoop now chunk fuel t0).length = ceilDiv (now - t0).toNat chunk.toNat := by
  intro fuel
  induction fuel with
  | zero =>
    intro t0 hf
    have h0 : (now - t0).toNat = 0 := by omega
    rw [h0, ceilDiv_zero_left (by omega)]
    rfl
  | succ fuel ih =>
    intro t0 hf
    unfold windowsLoop
    by_cases h : t0 < now
    · rw [if_pos h]
      simp only [List.length_cons]
      rw [ih (t0 + chunk) (by omega)]
      have hn : 0 < (now - t0).toNat := by omega
      have he : (now - (t0 + chunk)).toNat = (now - t0).toNat - chunk.toNat := by omega
      rw [he, ← ceilDiv_step hn (by omega)]
    · rw [if_neg h]
      have h0 : (now - t0).toNat = 0 := by omega
      rw [h0, ceilDiv_zero_left (by omega)]
      rfl

theorem windowsLoop_mem (now chunk : Int) (hc : 0 < chunk) :
    ∀ fuel t0 w, w ∈ windowsLoop now chunk fuel t0 →
      t0 ≤ w.1 ∧ w.1 < w.2 ∧ w.2 ≤ now := by
  intro fuel
  induction fuel with
  | zero => intro t0 w hw; simp [windowsLoop] at hw
  | succ fuel ih =>
    intro t0 w hw
    unfold windowsLoop at hw
    by_cases h : t0 < now
    · rw [if_pos h] at hw
      rcases List.mem_cons.mp hw with rfl | hw
      · exact ⟨le_refl _, lt_min (by omega) h, min_le_right _ _⟩
      · have := ih (t0 + chunk) w hw
        exact ⟨by omega, this.2.1, this.2.2⟩
    · rw [if_neg h] at hw
      simp at hw

theorem windowsLoop_chain (now chunk : Int) :
    ∀ fuel t0, List.Chain' (fun w w' : Int × Int => w.2 = w'.1)
      (windowsLoop now chunk fuel t0) := by
  intro fuel
  induction fuel with
  | zero => intro t0; simp [windowsLoop]
  | succ fuel ih =>
    intro t0
    unfold windowsLoop
    by_cases h : t0 < now
    · rw [if_pos h, List.chain'_cons']
      refine ⟨?_, ih (t0 + chunk)⟩
      intro y hy
      cases fuel with
      | zero => simp [windowsLoop] at hy
      | succ fuel' =>
        unfold windowsLoop at hy
        by_cases h2 : t0 + chunk < now
        · rw [if_pos h2] at hy
          simp only [List.head?_cons, Option.mem_def, Option.some.injEq] at hy
          rw [← hy]
          exact min_eq_left (le_of_lt h2)
        · rw [if_neg h2] at hy
          simp at hy
    · rw [if_neg h]
      simp

theorem windowsLoop_last (now chunk : Int) (hc : 0 < chunk) :
    ∀ fuel t0, (now - t0).toNat ≤ fuel → t0 < now →
      ((windowsLoop now chunk fuel t0).getLast?).map Prod.snd = some now := by
  intro fuel
  induction fuel with
  | zero => intro t0 hf h; omega
  | succ fuel ih =>
    intro t0 hf h
    unfold windowsLoop
    rw [if_pos h]
    by_cases h2 : t0 + chunk < now
    · have htail := ih (t0 + chunk) (by omega) h2
      cases hl : windowsLoop now chunk fuel (t0 + chunk) with
      | nil => rw [hl] at htail; simp at htail
      | cons b t =>
        rw [List.getLast?_cons_cons]
        rw [hl] at htail
        exact htail
    · have htail : windowsLoop now chunk fuel (t0 + chunk) = [] := by
        cases fuel with
        | zero => rfl
        | succ f =>
          unfold windowsLoop
          rw [if_neg h2]
      rw [htail]
      have hm : min (t0 + chunk) now = now := min_eq_right (by omega)
      simp [hm]

theorem windowsLoop_head (now chunk : Int) :
    ∀ fuel t0, (now - t0).toNat ≤ fuel → t0 < now →
      ((windowsLoop now chunk fuel t0).head?).map Prod.fst = some t0 := by
  intro fuel
  cases fuel with
  | zero => intro t0 hf h; omega
  | succ fuel =>
    intro t0 hf h
    unfold windowsLoop
    rw [if_pos h]
    rfl

theorem chunkOf_pos (dur : Int) : 0 < chunkOf dur := by
  unfold chunkOf
  split <;> decide

/-- C2 amended: for every positive lookback duration `D`, the chunk loop
produces exactly `ceil(D / chunkSize)` windows with `chunkSize` 1 hour
when `D > 2h` and 15 minutes otherwise; consecutive windows are
contiguous, every window is non-empty and ends by `now`, the first window
starts at `now - D` and the final window ends exactly at `now`. -/
theorem planWindows_spec (now D : Int) (hD : 0 < D) :
    (planWindows now D).length = ceilDiv D.toNat (chunkOf D).toNat ∧
    List.Chain' (fun w w' : Int × Int => w.2 = w'.1) (planWindows now D) ∧
    (∀ w ∈ planWindows now D, w.1 < w.2 ∧ w.2 ≤ now) ∧
    ((planWindows now D).head?).map Prod.fst = some (now - D) ∧
    ((planWindows now D).getLast?).map Prod.snd = some now := by
  have hD0 : ¬ D = 0 := by omega
  have hc := chunkOf_pos D
  have hstart : now - (now - D) = D := by ring
  unfold planWindows
  simp only [if_neg hD0]
  rw [hstart]
  refine ⟨?_, windowsLoop_chain now (chunkOf D) D.toNat (now - D), ?_, ?_, ?_⟩
  · rw [windowsLoop_length now (chunkOf D) hc D.toNat (now - D) (by omega), hstart]
  · intro w hw
    have := windowsLoop_mem now (chunkOf D) hc D.toNat (now - D) w hw
    exact ⟨this.2.1, this.2.2⟩
  · exact windowsLoop_head now (chunkOf D) D.toNat (now - D) (by omega) (by omega)
  · exact windowsLoop_last now (chunkOf D) hc D.toNat (now - D) (by omega) (by omega)

/-- C2 counterexample: at `D = 0` the planner substitutes the 2-hour
default and yields 8 windows, not `ceil(0 / chunkSize) = 0` as the
claim's formula states for every `D`. -/
theorem planWindows_zero_counterexample :
    (planWindows 0 0).length = 8 ∧ ceilDiv (Int.toNat 0) (chunkOf 0).toNat = 0 ∧
    (planWindows 0 0).length ≠ ceilDiv (Int.toNat 0) (chunkOf 0).toNat := by
  refine ⟨by decide, by decide, ?_⟩
  intro h
  rw [show ceilDiv (Int.toNat 0) (chunkOf 0).toNat = 0 from by decide] at h
  rw [show (planWindows 0 0).length = 8 from by decide] at h
  exact absurd h (by decide)

theorem planWindows_spec_witness :
    (0 : Int) < 900000000000 ∧
    ((planWindows 0 900000000000).length
        = ceilDiv (900000000000 : Int).toNat (chunkOf 900000000000).toNat ∧
     List.Chain' (fun w w' : Int × Int => w.2 = w'.1) (planWindows 0 900000000000) ∧
     (∀ w ∈ planWindows 0 900000000000, w.1 < w.2 ∧ w.2 ≤ 0) ∧
     ((planWindows 0 900000000000).head?).map Prod.fst = some (0 - 900000000000) ∧
     ((planWindows 0 900000000000).getLast?).map Prod.snd = some 0) :=
  ⟨by decide, planWindows_spec 0 900000000000 (by decide)⟩

theorem planWindows_zero_eq (now : Int) :
    planWindows now 0 = planWindows now twoHours := by
  unfold planWindows chunkOf
  norm_num [twoHours]

/-- C4: planning with a zero total duration yields exactly the windows of
a 2-hour duration at the same reference instant, and never zero windows
(there are 8 fifteen-minute windows). -/
theorem planWindows_zero_default :
    ∀ now : Int, planWindows now 0 = planWindows now twoHours ∧
      (planWindows now 0).length = 8 := by
  intro now
  refine ⟨planWindows_zero_eq now, ?_⟩
  rw [planWindows_zero_eq now]
  unfold planWindows
  dsimp only
  rw [if_neg (by decide : ¬ twoHours = 0)]
  have hstart : now - (now - twoHours) = twoHours := by ring
  rw [hstart]
  rw [windowsLoop_length now (chunkOf twoHours) (chunkOf_pos twoHours)
    twoHours.toNat (now - twoHours) (by rw [hstart])]
  rw [hstart]
  decide

/-! ## Round-trip lemmas for the duration conversions -/

theorem digitChar_props {d : Nat} (hd : d < 10) :
    (Char.ofNat (48 + d)).toNat - 48 = d ∧ (Char.ofNat (48 + d)).isDigit = true ∧
    goSpace (Char.ofNat (48 + d)) = false ∧
    Char.toUpper (Char.ofNat (48 + d)) = Char.ofNat (48 + d) := by
  interval_cases d <;> exact ⟨by decide, by decide, by decide, by decide⟩

theorem digitCharsAux_mem {fuel n : Nat} :
    ∀ c ∈ digitCharsAux fuel n, ∃ d, d < 10 ∧ c = Char.ofNat (48 + d) := by
  induction fuel generalizing n with
  | zero => intro c hc; simp [digitCharsAux] at hc
  | succ fuel ih =>
    intro c hc
    unfold digitCharsAux at hc
    by_cases h : n = 0
    · rw [if_pos h] at hc; simp at hc
    · rw [if_neg h] at hc
      rcases List.mem_append.mp hc with hc | hc
      · exact ih c hc
      · simp only [List.mem_singleton] at hc
        exact ⟨n % 10, Nat.mod_lt _ (by norm_num), hc⟩

theorem digitChars_mem {n : Nat} :
    ∀ c ∈ digitChars n, ∃ d, d < 10 ∧ c = Char.ofNat (48 + d) := by
  unfold digitChars
  by_cases h : n = 0
  · rw [if_pos h]
    intro c hc
    simp only [List.mem_singleton] at hc
    exact ⟨0, by norm_num, by rw [hc]⟩
  · rw [if_neg h]
    exact digitCharsAux_mem

theorem digitChars_ne_nil (n : Nat) : digitChars n ≠ [] := by
  unfold digitChars
  by_cases h : n = 0
  · rw [if_pos h]; simp
  · rw [if_neg h]
    cases n with
    | zero => exact absurd rfl h
    | succ m =>
      unfold digitCharsAux
      rw [if_neg h]
      simp

theorem charsVal_append_singleton (cs : List Char) (c : Char) :
    charsVal (cs ++ [c]) = charsVal cs * 10 + (c.toNat - 48) := by
  unfold charsVal
  rw [List.foldl_append]
  rfl

theorem charsVal_digitCharsAux {fuel n : Nat} (h : n ≤ fuel) :
    charsVal (digitCharsAux fuel n) = n := by
  induction fuel generalizing n with
  | zero =>
    have h0 : n = 0 := by omega
    subst h0
    rfl
  | succ fuel ih =>
    unfold digitCharsAux
    by_cases h0 : n = 0
    · rw [if_pos h0, h0]; rfl
    · rw [if_neg h0, charsVal_append_singleton, ih (by omega)]
      have h10 : n % 10 < 10 := Nat.mod_lt _ (by norm_num)
      rw [(digitChar_props h10).1]
      omega

theorem charsVal_digitChars (n : Nat) : charsVal (digitChars n) = n := by
  unfold digitChars
  by_cases h : n = 0
  · rw [if_pos h, h]; rfl
  · rw [if_neg h]
    exact charsVal_digitCharsAux (by omega)

theorem digitChars_isDigit {n : Nat} : ∀ c ∈ digitChars n, c.isDigit = true := by
  intro c hc
  obtain ⟨d, hd, rfl⟩ := digitChars_mem c hc
  exact (digitChar_props hd).2.1

/-- Accumulator update of the digit-run scanner `findUnitAux`. -/
def scanStep (a : Option Nat) (c : Char) : Option Nat :=
  some ((a.getD 0) * 10 + (c.toNat - 48))

theorem findUnitAux_digits {ds : List Char} (hds : ∀ c ∈ ds, c.isDigit = true) :
    ∀ (u : Char) (rest : List Char) (acc : Option Nat),
      findUnitAux u (ds ++ rest) acc = findUnitAux u rest (ds.foldl scanStep acc) := by
  induction ds with
  | nil => intro u rest acc; rfl
  | cons d ds ih =>
    intro u rest acc
    have hd : d.isDigit = true := hds d (by simp)
    show findUnitAux u (d :: (ds ++ rest)) acc = _
    simp only [findUnitAux, hd, if_true, List.foldl_cons]
    exact ih (fun c hc => hds c (by simp [hc])) u rest _

theorem foldl_scanStep_some (ds : List Char) (v : Nat) :
    ds.foldl scanStep (some v) =
      some (ds.foldl (fun a c => a * 10 + (c.toNat - 48)) v) := by
  induction ds generalizing v with
  | nil => rfl
  | cons d ds ih => simp [List.foldl_cons, scanStep, ih]

theorem scanStep_none_val (d : Char) (ds : List Char) :
    (d :: ds).foldl scanStep none = some (charsVal (d :: ds)) := by
  simp [List.foldl_cons, scanStep, foldl_scanStep_some, charsVal]

theorem findUnitAux_hit {u : Char} (hu : u.isDigit = false) (rest : List Char) (v : Nat) :
    findUnitAux u (u :: rest) (some v) = some v := by
  simp [findUnitAux, hu]

theorem findUnitAux_reset {u c : Char} (hc : c.isDigit = false) (hne : c ≠ u)
    (rest : List Char) (acc : Option Nat) :
    findUnitAux u (c :: rest) acc = findUnitAux u rest none := by
  simp [findUnitAux, hc, hne]

theorem findUnit_run_hit {u : Char} (hu : u.isDigit = false) (n : Nat) (rest : List Char) :
    findUnit u (digitChars n ++ u :: rest) = some n := by
  unfold findUnit
  obtain ⟨d, ds, hcons⟩ : ∃ d ds, digitChars n = d :: ds := by
    cases h : digitChars n with
    | nil => exact absurd h (digitChars_ne_nil n)
    | cons d ds => exact ⟨d, ds, rfl⟩
  rw [findUnitAux_digits digitChars_isDigit u (u :: rest) none, hcons,
    scanStep_none_val, ← hcons, charsVal_digitChars]
  exact findUnitAux_hit hu rest n

theorem findUnit_skip_run {u c : Char} (hcd : c.isDigit = false) (hne : c ≠ u)
    (n : Nat) (rest : List Char) :
    findUnit u (digitChars n ++ c :: rest) = findUnit u rest := by
  unfold findUnit
  rw [findUnitAux_digits digitChars_isDigit u (c :: rest) none]
  exact findUnitAux_reset hcd hne rest _

theorem parseISO_mk (h m s : Nat) :
    ParseISO8601ToDuration (String.mk ('P' :: 'T' :: (digitChars h ++ 'H' ::
        (digitChars m ++ 'M' :: (digitChars s ++ ['S'])))))
      = .ok ((h : Int) * oneHour + (m : Int) * 60000000000 + (s : Int) * nsPerSecond) := by
  have hmem : ∀ c ∈ ('P' :: 'T' :: (digitChars h ++ 'H' ::
      (digitChars m ++ 'M' :: (digitChars s ++ ['S'])))),
      goSpace c = false ∧ Char.toUpper c = c := by
    intro c hc
    simp only [List.mem_cons, List.mem_append, List.mem_singleton] at hc
    rcases hc with rfl | rfl | hc | rfl | hc | rfl | hc | rfl | hfalse
    · exact ⟨by decide, by decide⟩
    · exact ⟨by decide, by decide⟩
    · obtain ⟨d, hd, rfl⟩ := digitChars_mem c hc
      exact ⟨(digitChar_props hd).2.2.1, (digitChar_props hd).2.2.2⟩
    · exact ⟨by decide, by decide⟩
    · obtain ⟨d, hd, rfl⟩ := digitChars_mem c hc
      exact ⟨(digitChar_props hd).2.2.1, (digitChar_props hd).2.2.2⟩
    · exact ⟨by decide, by decide⟩
    · obtain ⟨d, hd, rfl⟩ := digitChars_mem c hc
      exact ⟨(digitChar_props hd).2.2.1, (digitChar_props hd).2.2.2⟩
    · exact ⟨by decide, by decide⟩
    · simp at hfalse
  unfold ParseISO8601ToDuration
  dsimp only
  rw [toList_mk, trimChars_eq_self (fun c hc => (hmem c hc).1)]
  have hupper : (('P' :: 'T' :: (digitChars h ++ 'H' ::
      (digitChars m ++ 'M' :: (digitChars s ++ ['S']))))).map Char.toUpper
      = 'P' :: 'T' :: (digitChars h ++ 'H' :: (digitChars m ++ 'M' ::
        (digitChars s ++ ['S']))) := by
    have hcongr := List.map_congr_left (f := Char.toUpper) (g := id)
      (l := 'P' :: 'T' :: (digitChars h ++ 'H' :: (digitChars m ++ 'M' ::
        (digitChars s ++ ['S'])))) (fun c hc => (hmem c hc).2)
    simpa using hcongr
  rw [hupper]
  rw [if_neg (by simp : ¬ ('P' :: 'T' :: (digitChars h ++ 'H' ::
    (digitChars m ++ 'M' :: (digitChars s ++ ['S'])))).take 1 ≠ ['P'])]
  have hidx : charIndex 'T' ('P' :: 'T' :: (digitChars h ++ 'H' ::
      (digitChars m ++ 'M' :: (digitChars s ++ ['S'])))) = some 1 := by
    simp [charIndex]
  rw [hidx]
  show Except.ok _ = _
  rw [show ('P' :: 'T' :: (digitChars h ++ 'H' :: (digitChars m ++ 'M' ::
    (digitChars s ++ ['S'])))).drop (1 + 1) = digitChars h ++ 'H' ::
    (digitChars m ++ 'M' :: (digitChars s ++ ['S'])) from rfl]
  rw [findUnit_run_hit (by decide) h]
  rw [findUnit_skip_run (by decide) (by decide) h, findUnit_run_hit (by decide) m]
  rw [findUnit_skip_run (by decide) (by decide) h,
    findUnit_skip_run (by decide) (by decide) m, findUnit_run_hit (by decide) s]
  rfl

theorem isoOfSeconds_roundTrip (n : Nat) :
    ParseISO8601ToDuration (isoOfSeconds n) = .ok ((n : Int) * nsPerSecond) := by
  unfold isoOfSeconds
  rw [parseISO_mk]
  refine congrArg Except.ok ?_
  have hnat : (n / 3600) * 3600 + (n % 3600 / 60) * 60 + (n % 60) = n := by omega
  have hint : ((n / 3600 : Nat) : Int) * 3600 + ((n % 3600 / 60 : Nat) : Int) * 60 +
      ((n % 60 : Nat) : Int) = (n : Int) := by exact_mod_cast hnat
  unfold oneHour nsPerSecond
  linear_combination (1000000000 : Int) * hint

/-- C6: converting the simple duration string `"2h30m45s"` yields exactly
`"PT2H30M45S"`, parsing `"PT2H30M45S"` yields exactly 2h30m45s in
nanoseconds, and in general parsing the rendered `PT#H#M#S` form of any
whole number of seconds returns exactly that duration. -/
theorem iso8601_roundTrip :
    ISO8601Duration "2h30m45s" = .ok "PT2H30M45S" ∧
    ParseISO8601ToDuration "PT2H30M45S" = .ok 9045000000000 ∧
    ∀ n : Nat, ParseISO8601ToDuration (isoOfSeconds n) = .ok ((n : Int) * nsPerSecond) :=
  ⟨by decide, by decide, isoOfSeconds_roundTrip⟩

/-- C10: a timespan starting with `P` that is not a parseable restricted
ISO-8601 duration (such as `"P1D"` or `"P5X"`) is not a configuration
error: `ISO8601Duration` returns it unvalidated, both downstream parses
fail, the resolved duration falls back to 0, and planning with that
duration covers the default 2-hour window. -/
theorem invalid_iso_timespan_fallback :
    ISO8601Duration "P1D" = .ok "P1D" ∧ ISO8601Duration "P5X" = .ok "P5X" ∧
    (ParseISO8601ToDuration "P1D").toOption = none ∧
    (ParseISO8601ToDuration "P5X").toOption = none ∧
    (parseGoDuration "P1D").toOption = none ∧
    (parseGoDuration "P5X").toOption = none ∧
    resolveDuration "P1D" "P1D" = 0 ∧ resolveDuration "P5X" "P5X" = 0 ∧
    ∀ now : Int, planWindows now (resolveDuration "P1D" "P1D") = planWindows now twoHours :=
  ⟨by decide, by decide, by decide, by decide, by decide, by decide, by decide, by decide,
    fun now => by
      rw [show resolveDuration "P1D" "P1D" = 0 from by decide]
      exact planWindows_zero_eq now⟩

/-! ## RFC3339 timestamp parsing
(`utils.ParseTimeRFC3339`, src/unnamed/part_003, lines 1178-1190; the
RFC3339 and RFC3339Nano layouts accept exactly the same strings, so the
two `time.Parse` attempts are one parser) -/

def isLeapYear (y : Int) : Bool :=
  y % 4 = 0 && (y % 100 != 0 || y % 400 = 0)

def daysInMonth (y : Int) (m : Nat) : Nat :=
  if m = 2 then (if isLeapYear y then 29 else 28)
  else if m = 4 ∨ m = 6 ∨ m = 9 ∨ m = 11 then 30
  else 31

/-- Days before month `m` in a non-leap year (1-based month). -/
def daysBeforeMonth (m : Nat) : Nat :=
  match m with
  | 1 => 0 | 2 => 31 | 3 => 59 | 4 => 90 | 5 => 120 | 6 => 151 | 7 => 181
  | 8 => 212 | 9 => 243 | 10 => 273 | 11 => 304 | _ => 334

/-- Days from 0001-01-01 to the given proleptic-Gregorian date. -/
def daysSinceYearOne (y : Int) (m d : Nat) : Int :=
  (y - 1) * 365 + Int.fdiv (y - 1) 4 - Int.fdiv (y - 1) 100 + Int.fdiv (y - 1) 400 +
    (daysBeforeMonth m : Int) + (if 2 < m ∧ isLeapYear y = true then 1 else 0) +
    ((d : Int) - 1)

def digit2 (c1 c2 : Char) : Option Nat :=
  if c1.isDigit && c2.isDigit then some ((c1.toNat - 48) * 10 + (c2.toNat - 48))
  else none

def digit4 (c1 c2 c3 c4 : Char) : Option Nat :=
  if c1.isDigit && c2.isDigit && c3.isDigit && c4.isDigit then
    some ((((c1.toNat - 48) * 10 + (c2.toNat - 48)) * 10 + (c3.toNat - 48)) * 10 +
      (c4.toNat - 48))
  else none

/-- Fractional-second digits to nanoseconds: the first nine digits,
zero-padded on the right. -/
def fracNanos (ds : List Char) : Nat :=
  charsVal (ds.take 9) * 10 ^ (9 - min 9 ds.length)

/-- Optional fractional second after the seconds field (`.` or `,`
followed by at least one digit), as accepted by Go's RFC3339 parser. -/
def parseFrac : List Char → Nat × List Char
  | '.' :: c :: rest =>
    if c.isDigit then
      (fracNanos ((c :: rest).takeWhile Char.isDigit), (c :: rest).dropWhile Char.isDigit)
    else (0, '.' :: c :: rest)
  | ',' :: c :: rest =>
    if c.isDigit then
      (fracNanos ((c :: rest).takeWhile Char.isDigit), (c :: rest).dropWhile Char.isDigit)
    else (0, ',' :: c :: rest)
  | cs => (0, cs)

/-- Offset seconds east of UTC: `Z` or `±hh:mm` with `hh ≤ 23`, `mm ≤ 59`. -/
def parseOffset : List Char → Option Int
  | ['Z'] => some 0
  | [sgn, h1, h2, ':', m1, m2] =>
    match digit2 h1 h2, digit2 m1 m2 with
    | some hh, some mm =>
      if hh ≤ 23 && mm ≤ 59 then
        if sgn = '+' then some ((hh * 3600 + mm * 60 : Nat) : Int)
        else if sgn = '-' then some (-((hh * 3600 + mm * 60 : Nat) : Int))
        else none
      else none
    | _, _ => none
  | _ => none

/-- RFC3339/RFC3339Nano parsing as in Go's `time.Parse`: strict
`YYYY-MM-DDThh:mm:ss[.fff...](Z|±hh:mm)` with field validation; result is
nanoseconds since Go's zero time. -/
def parseRFC3339Chars : List Char → Option Int
  | y1 :: y2 :: y3 :: y4 :: '-' :: mo1 :: mo2 :: '-' :: d1 :: d2 :: 'T' ::
      h1 :: h2 :: ':' :: mi1 :: mi2 :: ':' :: s1 :: s2 :: rest =>
    match digit4 y1 y2 y3 y4, digit2 mo1 mo2, digit2 d1 d2, digit2 h1 h2,
        digit2 mi1 mi2, digit2 s1 s2 with
    | some y, some mo, some d, some h, some mi, some s =>
      if 1 ≤ mo ∧ mo ≤ 12 ∧ 1 ≤ d ∧ d ≤ daysInMonth (y : Int) mo ∧
          h ≤ 23 ∧ mi ≤ 59 ∧ s ≤ 59 then
        let fr := parseFrac rest
        match parseOffset fr.2 with
        | some off =>
          some ((daysSinceYearOne (y : Int) mo d * 86400 +
            ((h * 3600 + mi * 60 + s : Nat) : Int) - off) * nsPerSecond + (fr.1 : Int))
        | none => none
      else none
    | _, _, _, _, _, _ => none
  | _ => none

/-- `utils.ParseTimeRFC3339`: trim, parse, and return Go's zero time
(here `0`) on failure; a parsed `0001-01-01T00:00:00Z` is itself the zero
time, faithfully to Go's `IsZero`. -/
def ParseTimeRFC3339 (s : String) : Int :=
  (parseRFC3339Chars (trimChars s.toList)).getD 0

/-! ## Row classification and stitching
(`exportTableData`, src/unnamed/part_008, lines 344-517) -/

/-- Dynamic cell values of a query result row. -/
inductive JVal where
  | null
  | str (s : String)
  | num (n : Int)
  | bool (b : Bool)
deriving DecidableEq

/-- The `toStr` closure of `exportTableData`: nil becomes the empty
string, strings are used as-is, other scalars via `fmt.Sprint`. -/
def toStrJ : JVal → String
  | .null => ""
  | .str s => s
  | .num n => toString n
  | .bool b => if b then "true" else "false"

/-- StitchKey for container logs (`ckey` in the Go source). -/
structure ckey where
  ns : String
  pod : String
  container : String
deriving DecidableEq

/-- The per-row tuple collected for `ContainerLogV2` stitching (`v2row`). -/
structure V2Row where
  tm : String
  ns : String
  pod : String
  cn : String
  src : String
  msg : JVal
deriving DecidableEq

def rowKey (r : V2Row) : ckey := ⟨r.ns, r.pod, r.cn⟩

def ptime (r : V2Row) : Int := ParseTimeRFC3339 r.tm

/-- The `sort.Slice` comparator for container-log rows: parsed-time
order, falling back to byte-wise string order when either side fails to
parse (`IsZero`). -/
def v2Less (a b : V2Row) : Bool :=
  if ParseTimeRFC3339 a.tm = 0 ∨ ParseTimeRFC3339 b.tm = 0 then strLt a.tm b.tm
  else decide (ParseTimeRFC3339 a.tm < ParseTimeRFC3339 b.tm)

/-- `sort.Slice(v2rows, less)`, modelled as insertion sort with respect
to the non-strict relation induced by the comparator. -/
def sortV2 (rows : List V2Row) : List V2Row :=
  List.insertionSort (fun a b => v2Less b a = false) rows

def Buffers := ckey → List V2Row

def emptyBufs : Buffers := fun _ => []

/-- One iteration of the append loop after sorting: rows whose namespace,
pod and container are all empty are skipped; otherwise the row's
formatted line is appended to the buffer keyed by its StitchKey. -/
def appendRow (bufs : Buffers) (r : V2Row) : Buffers :=
  if r.ns = "" ∧ r.pod = "" ∧ r.cn = "" then bufs
  else fun k => if k = rowKey r then bufs k ++ [r] else bufs k

/-- src/unnamed/part_008, lines 455-492: sort the window's pending rows,
then append each non-noise row to its key's buffer. -/
def stitchWindow (bufs : Buffers) (rows : List V2Row) : Buffers :=
  (sortV2 rows).foldl appendRow bufs

/-- Chronological window-by-window stitching starting from empty buffers. -/
def stitchWindows (ws : List (List V2Row)) : Buffers :=
  ws.foldl stitchWindow emptyBufs

/-! ## Ordering lemmas for the stitcher -/

theorem charsLt_asymm : ∀ as bs : List Char, charsLt as bs = true → charsLt bs as = false := by
  intro as
  induction as with
  | nil =>
    intro bs h
    cases bs with
    | nil => exact absurd h (by decide)
    | cons b bs => rfl
  | cons a as ih =>
    intro bs h
    cases bs with
    | nil => simp [charsLt] at h
    | cons b bs =>
      unfold charsLt at h ⊢
      by_cases hab : a < b
      · rw [if_pos hab] at h
        rw [if_neg (lt_asymm hab), if_pos hab]
      · rw [if_neg hab] at h
        by_cases hba : b < a
        · rw [if_pos hba] at h
          exact absurd h (by decide)
        · rw [if_neg hba] at h
          rw [if_neg hba, if_neg hab]
          exact ih bs h

theorem v2Less_asymm (a b : V2Row) : v2Less a b = true → v2Less b a = false := by
  unfold v2Less
  by_cases hz : ParseTimeRFC3339 a.tm = 0 ∨ ParseTimeRFC3339 b.tm = 0
  · rw [if_pos hz, if_pos (Or.symm hz)]
    exact charsLt_asymm _ _
  · rw [if_neg hz, if_neg fun hz' => hz (Or.symm hz')]
    intro h
    simp only [decide_eq_true_eq] at h
    simp only [decide_eq_false_iff_not]
    omega

theorem v2Less_total (a b : V2Row) : v2Less a b = false ∨ v2Less b a = false := by
  cases hab : v2Less a b with
  | false => exact Or.inl rfl
  | true => exact Or.inr (v2Less_asymm a b hab)

theorem v2Less_eq_of_parses {a b : V2Row} (ha : ptime a ≠ 0) (hb : ptime b ≠ 0) :
    v2Less a b = decide (ptime a < ptime b) := by
  unfold v2Less
  rw [if_neg]
  · rfl
  · push_neg
    exact ⟨ha, hb⟩

theorem le_ptime_of_v2Less_false {a b : V2Row} (ha : ptime a ≠ 0) (hb : ptime b ≠ 0)
    (h : v2Less b a = false) : ptime a ≤ ptime b := by
  rw [v2Less_eq_of_parses hb ha] at h
  simp only [decide_eq_false_iff_not] at h
  omega

theorem lt_ptime_of_v2Less_true {a b : V2Row} (ha : ptime a ≠ 0) (hb : ptime b ≠ 0)
    (h : v2Less a b = true) : ptime a < ptime b := by
  rw [v2Less_eq_of_parses ha hb] at h
  simpa using h

theorem pairwise_orderedInsert {a : V2Row} {l : List V2Row}
    (hpa : ptime a ≠ 0) (hpl : ∀ x ∈ l, ptime x ≠ 0)
    (hs : l.Pairwise fun x y => ptime x ≤ ptime y) :
    (List.orderedInsert (fun x y => v2Less y x = false) a l).Pairwise
      fun x y => ptime x ≤ ptime y := by
  induction l with
  | nil => simp
  | cons b l ih =>
    rw [List.orderedInsert]
    by_cases h : v2Less b a = false
    · rw [if_pos h]
      have hab : ptime a ≤ ptime b :=
        le_ptime_of_v2Less_false hpa (hpl b (by simp)) h
      refine List.Pairwise.cons ?_ hs
      intro y hy
      rcases List.mem_cons.mp hy with rfl | hy
      · exact hab
      · exact le_trans hab (List.rel_of_pairwise_cons hs hy)
    · rw [if_neg h]
      have hba : ptime b ≤ ptime a := by
        have htrue : v2Less b a = true := by
          cases hv : v2Less b a with
          | false => exact absurd hv h
          | true => rfl
        exact le_of_lt (lt_ptime_of_v2Less_true (hpl b (by simp)) hpa htrue)
      refine List.Pairwise.cons ?_ (ih (fun x hx => hpl x (by simp [hx])) hs.of_cons)
      intro y hy
      rcases (List.mem_orderedInsert _).mp hy with rfl | hy
      · exact hba
      · exact List.rel_of_pairwise_cons hs hy

theorem mem_sortV2 {l : List V2Row} {x : V2Row} (hx : x ∈ sortV2 l) : x ∈ l :=
  (List.perm_insertionSort (fun a b => v2Less b a = false) l).mem_iff.mp hx

theorem pairwise_sortV2 {l : List V2Row} (hp : ∀ x ∈ l, ptime x ≠ 0) :
    (sortV2 l).Pairwise fun x y => ptime x ≤ ptime y := by
  unfold sortV2
  induction l with
  | nil => simp
  | cons a l ih =>
    rw [List.insertionSort]
    refine pairwise_orderedInsert (hp a (by simp)) ?_ ?_
    · intro x hx
      exact hp x (by simp [mem_sortV2 hx])
    · exact ih fun x hx => hp x (by simp [hx])

theorem foldl_appendRow (l : List V2Row) (bufs : Buffers) (k : ckey) :
    (l.foldl appendRow bufs) k =
      bufs k ++ l.filter fun r =>
        !decide (r.ns = "" ∧ r.pod = "" ∧ r.cn = "") && decide (rowKey r = k) := by
  induction l generalizing bufs with
  | nil => simp
  | cons r l ih =>
    rw [List.foldl_cons, ih, List.filter_cons]
    unfold appendRow
    by_cases hn : r.ns = "" ∧ r.pod = "" ∧ r.cn = ""
    · rw [if_pos hn]
      simp [hn]
    · rw [if_neg hn]
      by_cases hk : k = rowKey r
      · rw [if_pos hk]
        have hpred : (!decide (r.ns = "" ∧ r.pod = "" ∧ r.cn = "") &&
            decide (rowKey r = k)) = true := by
          simp [hn, hk.symm]
        rw [hpred]
        simp
      · rw [if_neg hk]
        have hpred : (!decide (r.ns = "" ∧ r.pod = "" ∧ r.cn = "") &&
            decide (rowKey r = k)) = false := by
          simp [hn]
          intro hkk
          exact absurd hkk.symm hk
        rw [hpred]
        simp

theorem stitchWindow_apply (bufs : Buffers) (rows : List V2Row) (k : ckey) :
    stitchWindow bufs rows k = bufs k ++ (sortV2 rows).filter
      (fun r => !decide (r.ns = "" ∧ r.pod = "" ∧ r.cn = "") && decide (rowKey r = k)) :=
  foldl_appendRow _ _ _

theorem mem_stitch_filter {w : List V2Row} {k : ckey} {x : V2Row}
    (hx : x ∈ (sortV2 w).filter
      (fun r => !decide (r.ns = "" ∧ r.pod = "" ∧ r.cn = "") && decide (rowKey r = k))) :
    x ∈ w ∧ rowKey x = k ∧ ¬(x.ns = "" ∧ x.pod = "" ∧ x.cn = "") := by
  obtain ⟨hmem, hpred⟩ := List.mem_filter.mp hx
  simp only [Bool.and_eq_true, Bool.not_eq_true', decide_eq_false_iff_not,
    decide_eq_true_eq] at hpred
  exact ⟨mem_sortV2 hmem, hpred.2, hpred.1⟩

theorem stitch_fold_sorted :
    ∀ (ws : List (List V2Row)) (bufs : Buffers) (k : ckey),
      (∀ w ∈ ws, ∀ r ∈ w, ptime r ≠ 0) →
      (ws.Pairwise fun w w' => ∀ r ∈ w, rowKey r = k → ∀ r' ∈ w', rowKey r' = k →
        ptime r ≤ ptime r') →
      ((bufs k).Pairwise fun a b => ptime a ≤ ptime b) →
      (∀ x ∈ bufs k, ∀ w ∈ ws, ∀ r ∈ w, rowKey r = k → ptime x ≤ ptime r) →
      ((ws.foldl stitchWindow bufs) k).Pairwise fun a b => ptime a ≤ ptime b := by
  intro ws
  induction ws with
  | nil =>
    intro bufs k _ _ hb _
    simpa using hb
  | cons w ws ih =>
    intro bufs k hp hm hb hcross
    rw [List.foldl_cons]
    have hpw : ∀ r ∈ w, ptime r ≠ 0 := hp w (by simp)
    apply ih (stitchWindow bufs w) k (fun w' hw' => hp w' (by simp [hw'])) hm.of_cons
    · rw [stitchWindow_apply, List.pairwise_append]
      refine ⟨hb, List.Pairwise.sublist (List.filter_sublist _) (pairwise_sortV2 hpw), ?_⟩
      intro x hx y hy
      obtain ⟨hyw, hyk, _⟩ := mem_stitch_filter hy
      exact hcross x hx w (by simp) y hyw hyk
    · intro x hx w' hw' r' hr' hk'
      rw [stitchWindow_apply] at hx
      rcases List.mem_append.mp hx with hx | hx
      · exact hcross x hx w' (by simp [hw']) r' hr' hk'
      · obtain ⟨hxw, hxk, _⟩ := mem_stitch_filter hx
        exact List.rel_of_pairwise_cons hm hw' x hxw hxk r' hr' hk'

/-- C1 amended: for rows delivered across chronologically processed
windows, if every row's timestamp parses and the key's rows are delivered
to windows consistently with parsed-time order (as when each row falls in
the window containing its timestamp), then the StitchKey's buffer is
non-decreasing by parsed timestamp.  As stated — for arbitrary delivery
of rows to windows, with the lexical fallback — the claim is refuted by
the out-of-order delivery counterexample below. -/
theorem stitchedBuffer_sorted (ws : List (List V2Row)) (k : ckey)
    (hp : ∀ w ∈ ws, ∀ r ∈ w, ptime r ≠ 0)
    (hm : ws.Pairwise fun w w' => ∀ r ∈ w, rowKey r = k → ∀ r' ∈ w', rowKey r' = k →
      ptime r ≤ ptime r') :
    (stitchWindows ws k).Pairwise fun a b => ptime a ≤ ptime b := by
  unfold stitchWindows
  apply stitch_fold_sorted ws emptyBufs k hp hm
  · simp [emptyBufs]
  · intro x hx
    simp [emptyBufs] at hx

def rowLate : V2Row :=
  ⟨"2024-01-01T01:00:00Z", "ns1", "pod1", "c1", "stdout", .str "late"⟩

def rowEarly : V2Row :=
  ⟨"2024-01-01T00:00:00Z", "ns1", "pod1", "c1", "stdout", .str "early"⟩

/-- C1 counterexample: two windows processed in chronological order, with
the later timestamp delivered in the earlier window.  Both timestamps
parse, yet the stitched buffer holds them in decreasing parsed-time order
(and decreasing lexical order), refuting the claim for arbitrary
per-window delivery. -/
theorem stitch_out_of_order_counterexample :
    stitchWindows [[rowLate], [rowEarly]] ⟨"ns1", "pod1", "c1"⟩ = [rowLate, rowEarly] ∧
    ptime rowLate ≠ 0 ∧ ptime rowEarly ≠ 0 ∧
    ptime rowEarly < ptime rowLate ∧
    strLt rowLate.tm rowEarly.tm = false ∧
    ¬ List.Chain' (fun a b => ptime a ≤ ptime b)
      (stitchWindows [[rowLate], [rowEarly]] ⟨"ns1", "pod1", "c1"⟩) ∧
    ¬ List.Chain' (fun a b : V2Row => strLt b.tm a.tm = false)
      (stitchWindows [[rowLate], [rowEarly]] ⟨"ns1", "pod1", "c1"⟩) := by
  have hbuf : stitchWindows [[rowLate], [rowEarly]] ⟨"ns1", "pod1", "c1"⟩
      = [rowLate, rowEarly] := by decide
  refine ⟨hbuf, by decide, by decide, by decide, by decide, ?_, ?_⟩
  · rw [hbuf]
    intro hch
    exact absurd (List.chain'_cons.mp hch).1 (by decide)
  · rw [hbuf]
    intro hch
    exact absurd (List.chain'_cons.mp hch).1 (by decide)

theorem stitchedBuffer_sorted_witness :
    (∀ w ∈ [[rowEarly], [rowLate]], ∀ r ∈ w, ptime r ≠ 0) ∧
    ([[rowEarly], [rowLate]].Pairwise fun w w' => ∀ r ∈ w,
      rowKey r = (⟨"ns1", "pod1", "c1"⟩ : ckey) → ∀ r' ∈ w',
      rowKey r' = (⟨"ns1", "pod1", "c1"⟩ : ckey) → ptime r ≤ ptime r') ∧
    ((stitchWindows [[rowEarly], [rowLate]] ⟨"ns1", "pod1", "c1"⟩).Pairwise
      fun a b => ptime a ≤ ptime b) :=
  ⟨by decide, by decide,
    stitchedBuffer_sorted [[rowEarly], [rowLate]] ⟨"ns1", "pod1", "c1"⟩
      (by decide) (by decide)⟩

/-! ## Table export
(`exportTableData` and `exportTables`, src/unnamed/part_008,
lines 228-341 and 278-524) -/

/-- One query result table (`res.Tables[0]`): column names and rows. -/
structure TableResult where
  cols : List String
  rows : List (List JVal)
deriving DecidableEq

/-- Artifacts written to the tar stream, named by their parameters (the
filename formatting itself is not claim-relevant).  Stitched-log payloads
are kept in the keyed buffers, since Go map iteration order is
randomized. -/
inductive Artifact where
  | schema (table : String) (payload : String)
  | part (table : String) (idx : Nat) (wstart wend : Int) (cols : List String)
      (rows : List (List JVal))
  | summary (table : String) (rows : Nat) (duration : String)
deriving DecidableEq

/-- The per-row tuple collected for `KubeEvents` stitching (`evtrow`). -/
structure EvtRow where
  tm : String
  ns : String
  name : String
  reason : String
  message : String
deriving DecidableEq

/-- The `sort.Slice` comparator for event rows (same pattern as for
container-log rows). -/
def evtLess (a b : EvtRow) : Bool :=
  if ParseTimeRFC3339 a.tm = 0 ∨ ParseTimeRFC3339 b.tm = 0 then strLt a.tm b.tm
  else decide (ParseTimeRFC3339 a.tm < ParseTimeRFC3339 b.tm)

def sortEvt (rows : List EvtRow) : List EvtRow :=
  List.insertionSort (fun a b => evtLess b a = false) rows

def EvtBuffers := String → List EvtRow

/-- Append an event row to its namespace's buffer; an empty namespace
defaults to the literal `"default"`. -/
def appendEvt (bufs : EvtBuffers) (r : EvtRow) : EvtBuffers :=
  let ns := if r.ns = "" then "default" else r.ns
  fun n => if n = ns then bufs n ++ [r] else bufs n

def stitchEvtWindow (bufs : EvtBuffers) (rows : List EvtRow) : EvtBuffers :=
  (sortEvt rows).foldl appendEvt bufs

/-- `row[i]` (query rows are column-aligned; out-of-range is null). -/
def cellAt (row : List JVal) (i : Nat) : JVal := row.getD i .null

/-- The `idx` closure: position of the first column with the given name,
`none` standing for Go's `-1`. -/
def colIdx (colNames : List String) (name : String) : Option Nat :=
  colNames.findIdx? fun c => decide (c = name)

/-- Per-target export state threaded through the window loop. -/
structure TableExportState where
  arts : List Artifact
  rowsTotal : Nat
  chunkIndex : Nat
  logs : Buffers
  events : EvtBuffers

/-- Outcome of one `QueryWorkspace` call: a query error, or the result
tables (a partial-success flag is only logged and does not alter control
flow). -/
def QueryFn := String → Int × Int → Except Unit (List TableResult)

/-- The body of the window loop of `exportTableData`: a failed query or
an empty result set is skipped; otherwise all rows are serialized into
one part artifact (when non-empty) and, for the recognized table shapes
with all required columns present, the per-window tuples are collected,
sorted and appended to the stitch buffers. -/
def processWindow (cfg : Config) (table : String) (st : TableExportState)
    (w : Int × Int) (qres : Except Unit (List TableResult)) : TableExportState :=
  match qres with
  | .error _ => st
  | .ok [] => st
  | .ok (tab :: _) =>
    let colNames := tab.cols
    let rowsChunk := tab.rows.length
    let timeIdx := colIdx colNames "TimeGenerated"
    let nsIdx := colIdx colNames "PodNamespace"
    let podIdx := colIdx colNames "PodName"
    let cnIdx := colIdx colNames "ContainerName"
    let srcIdx := colIdx colNames "LogSource"
    let msgIdx := colIdx colNames "LogMessage"
    let evNsIdx := colIdx colNames "Namespace"
    let evNameIdx := colIdx colNames "Name"
    let evReasonIdx := colIdx colNames "Reason"
    let evMsgIdx := colIdx colNames "Message"
    let v2rows : List V2Row :=
      if cfg.stitchLogs = true ∧ table = "ContainerLogV2" ∧ timeIdx.isSome = true ∧
          nsIdx.isSome = true ∧ podIdx.isSome = true ∧ cnIdx.isSome = true ∧
          srcIdx.isSome = true ∧ msgIdx.isSome = true then
        tab.rows.map fun row =>
          ⟨toStrJ (cellAt row (timeIdx.getD 0)), toStrJ (cellAt row (nsIdx.getD 0)),
           toStrJ (cellAt row (podIdx.getD 0)), toStrJ (cellAt row (cnIdx.getD 0)),
           toStrJ (cellAt row (srcIdx.getD 0)), cellAt row (msgIdx.getD 0)⟩
      else []
    let evrows : List EvtRow :=
      if cfg.stitchLogs = true ∧ cfg.stitchIncludeEvents = true ∧ table = "KubeEvents" ∧
          timeIdx.isSome = true ∧ evNsIdx.isSome = true ∧ evNameIdx.isSome = true ∧
          evReasonIdx.isSome = true ∧ evMsgIdx.isSome = true then
        tab.rows.map fun row =>
          ⟨toStrJ (cellAt row (timeIdx.getD 0)), toStrJ (cellAt row (evNsIdx.getD 0)),
           toStrJ (cellAt row (evNameIdx.getD 0)), toStrJ (cellAt row (evReasonIdx.getD 0)),
           toStrJ (cellAt row (evMsgIdx.getD 0))⟩
      else []
    let st1 :=
      if 0 < rowsChunk then
        { st with
          arts := st.arts ++ [.part table st.chunkIndex w.1 w.2 tab.cols tab.rows]
          chunkIndex := st.chunkIndex + 1
          rowsTotal := st.rowsTotal + rowsChunk }
      else st
    let st2 :=
      if cfg.stitchLogs = true ∧ table = "ContainerLogV2" ∧ v2rows ≠ [] then
        { st1 with logs := stitchWindow st1.logs v2rows }
      else st1
    if cfg.stitchLogs = true ∧ cfg.stitchIncludeEvents = true ∧ table = "KubeEvents" ∧
        evrows ≠ [] then
      { st2 with events := stitchEvtWindow st2.events evrows }
    else st2

/-- `exportTableData`: resolve the duration, plan the windows, run the
window loop, and always finish with exactly one summary artifact for the
table. -/
def exportTableData (cfg : Config) (query : QueryFn) (table : String) (now : Int)
    (iso : String) (logs : Buffers) (events : EvtBuffers) : TableExportState :=
  let dur := resolveDuration cfg.timespan iso
  let st := (planWindows now dur).foldl
    (fun st w => processWindow cfg table st w (query table w)) ⟨[], 0, 0, logs, events⟩
  { st with arts := st.arts ++ [.summary table st.rowsTotal iso] }

structure RunState where
  arts : List Artifact
  logs : Buffers
  events : EvtBuffers

/-- `exportTables`: for each table, write the schema artifact when the
schema fetch succeeds, then export the table's windows.  In the source
`exportTableData` never returns a non-nil error (all failures are
swallowed inside it), so the `continue` guard is dead and every listed
table is attempted. -/
def exportTables (cfg : Config) (schemaQ : String → Option String) (query : QueryFn)
    (tables : List String) (now : Int) (iso : String) : RunState :=
  tables.foldl
    (fun st table =>
      let sArts := match schemaQ table with
        | some payload => [Artifact.schema table payload]
        | none => []
      let r := exportTableData cfg query table now iso st.logs st.events
      ⟨st.arts ++ sArts ++ r.arts, r.logs, r.events⟩)
    ⟨[], emptyBufs, fun _ => []⟩

/-! ## Summary and part artifact lemmas -/

def summaryName : Artifact → Option String
  | .summary t _ _ => some t
  | _ => none

theorem processWindow_no_summary (cfg : Config) (table : String) (st : TableExportState)
    (w : Int × Int) (qres : Except Unit (List TableResult)) :
    (processWindow cfg table st w qres).arts.filterMap summaryName
      = st.arts.filterMap summaryName := by
  unfold processWindow
  rcases qres with e | tabs
  · rfl
  rcases tabs with _ | ⟨tab, rest⟩
  · rfl
  dsimp only
  split_ifs <;> simp [List.filterMap_append, summaryName]

theorem processWindow_arts_mono {a : Artifact} (cfg : Config) (table : String)
    (st : TableExportState) (w : Int × Int) (qres : Except Unit (List TableResult))
    (ha : a ∈ st.arts) : a ∈ (processWindow cfg table st w qres).arts := by
  unfold processWindow
  rcases qres with e | tabs
  · exact ha
  rcases tabs with _ | ⟨tab, rest⟩
  · exact ha
  dsimp only
  split_ifs <;> simp [List.mem_append, ha]

theorem fold_no_summary (cfg : Config) (table : String) (query : QueryFn) :
    ∀ (ws : List (Int × Int)) (st : TableExportState),
      st.arts.filterMap summaryName = [] →
      (((ws.foldl (fun st w => processWindow cfg table st w (query table w)) st).arts).filterMap
        summaryName) = [] := by
  intro ws
  induction ws with
  | nil => intro st h; simpa using h
  | cons w ws ih =>
    intro st h
    rw [List.foldl_cons]
    exact ih _ (by rw [processWindow_no_summary]; exact h)

theorem fold_arts_mono (cfg : Config) (table : String) (query : QueryFn) :
    ∀ (ws : List (Int × Int)) (st : TableExportState) (a : Artifact), a ∈ st.arts →
      a ∈ ((ws.foldl (fun st w => processWindow cfg table st w (query table w)) st).arts) := by
  intro ws
  induction ws with
  | nil => intro st a ha; simpa using ha
  | cons w ws ih =>
    intro st a ha
    rw [List.foldl_cons]
    exact ih _ a (processWindow_arts_mono cfg table st w (query table w) ha)

theorem exportTableData_summaries (cfg : Config) (query : QueryFn) (table : String)
    (now : Int) (iso : String) (logs : Buffers) (events : EvtBuffers) :
    (exportTableData cfg query table now iso logs events).arts.filterMap summaryName
      = [table] ∧
    ∃ n, (exportTableData cfg query table now iso logs events).arts.getLast?
      = some (.summary table n iso) := by
  unfold exportTableData
  dsimp only
  constructor
  · rw [List.filterMap_append,
      fold_no_summary cfg table query (planWindows now (resolveDuration cfg.timespan iso))
        ⟨[], 0, 0, logs, events⟩ rfl]
    rfl
  · exact ⟨_, List.getLast?_concat _⟩

theorem exportTables_fold_summaries (cfg : Config) (schemaQ : String → Option String)
    (query : QueryFn) (now : Int) (iso : String) :
    ∀ (tables : List String) (st : RunState),
      (((tables.foldl (fun st table =>
        let sArts := match schemaQ table with
          | some payload => [Artifact.schema table payload]
          | none => []
        let r := exportTableData cfg query table now iso st.logs st.events
        (⟨st.arts ++ sArts ++ r.arts, r.logs, r.events⟩ : RunState)) st).arts).filterMap
        summaryName) = st.arts.filterMap summaryName ++ tables := by
  intro tables
  induction tables with
  | nil => intro st; simp
  | cons t tables ih =>
    intro st
    rw [List.foldl_cons, ih]
    dsimp only
    rw [List.filterMap_append, List.filterMap_append,
      (exportTableData_summaries cfg query t now iso st.logs st.events).1]
    have hs : ((match schemaQ t with
        | some payload => [Artifact.schema t payload]
        | none => []).filterMap summaryName) = [] := by
      cases schemaQ t <;> rfl
    rw [hs]
    simp

/-- C5: every attempted target yields exactly one summary artifact,
emitted after all of its windows were attempted (it is the last artifact
of the target's export), for an arbitrary query oracle — including one
that fails on every window; and across a whole run the summaries are
exactly one per scheduled target in order, so a query failure on one
target never prevents later targets from producing their summaries. -/
theorem summary_per_target (cfg : Config) (query : QueryFn) (table : String) (now : Int)
    (iso : String) (logs : Buffers) (events : EvtBuffers)
    (schemaQ : String → Option String) (tables : List String) :
    ((exportTableData cfg query table now iso logs events).arts.filterMap summaryName
        = [table] ∧
      ∃ n, (exportTableData cfg query table now iso logs events).arts.getLast?
        = some (.summary table n iso)) ∧
    (exportTables cfg schemaQ query tables now iso).arts.filterMap summaryName = tables := by
  refine ⟨exportTableData_summaries cfg query table now iso logs events, ?_⟩
  unfold exportTables
  rw [exportTables_fold_summaries]
  rfl

/-! ## Noise-row exclusion and raw-part completeness -/

def noiseFree (bufs : Buffers) : Prop :=
  ∀ k x, x ∈ bufs k → ¬(x.ns = "" ∧ x.pod = "" ∧ x.cn = "")

theorem stitchWindow_noiseFree {bufs : Buffers} {rows : List V2Row}
    (hb : noiseFree bufs) : noiseFree (stitchWindow bufs rows) := by
  intro k x hx
  rw [stitchWindow_apply] at hx
  rcases List.mem_append.mp hx with hx | hx
  · exact hb k x hx
  · exact (mem_stitch_filter hx).2.2

theorem processWindow_noiseFree {cfg : Config} {table : String} {st : TableExportState}
    {w : Int × Int} {qres : Except Unit (List TableResult)}
    (hb : noiseFree st.logs) : noiseFree (processWindow cfg table st w qres).logs := by
  unfold processWindow
  rcases qres with e | tabs
  · exact hb
  rcases tabs with _ | ⟨tab, rest⟩
  · exact hb
  dsimp only
  split_ifs <;> first
    | exact hb
    | exact stitchWindow_noiseFree hb

theorem fold_noiseFree (cfg : Config) (table : String) (query : QueryFn) :
    ∀ (ws : List (Int × Int)) (st : TableExportState), noiseFree st.logs →
      noiseFree ((ws.foldl (fun st w => processWindow cfg table st w (query table w)) st).logs) := by
  intro ws
  induction ws with
  | nil => intro st h; simpa using h
  | cons w ws ih =>
    intro st h
    rw [List.foldl_cons]
    exact ih _ (processWindow_noiseFree h)

theorem processWindow_has_part {cfg : Config} {table : String} {st : TableExportState}
    {w : Int × Int} {tab : TableResult} {rest : List TableResult}
    (hrows : 0 < tab.rows.length) :
    Artifact.part table st.chunkIndex w.1 w.2 tab.cols tab.rows ∈
      (processWindow cfg table st w (.ok (tab :: rest))).arts := by
  unfold processWindow
  dsimp only
  split_ifs <;> simp_all

theorem fold_part_mem (cfg : Config) (table : String) (query : QueryFn) :
    ∀ (ws : List (Int × Int)) (st : TableExportState) (w : Int × Int), w ∈ ws →
      ∀ (tab : TableResult) (rest : List TableResult),
        query table w = .ok (tab :: rest) → 0 < tab.rows.length →
        ∃ i, Artifact.part table i w.1 w.2 tab.cols tab.rows ∈
          ((ws.foldl (fun st w => processWindow cfg table st w (query table w)) st).arts) := by
  intro ws
  induction ws with
  | nil => intro st w hw; simp at hw
  | cons w0 ws ih =>
    intro st w hw tab rest hq hrows
    rw [List.foldl_cons]
    rcases List.mem_cons.mp hw with rfl | hw
    · refine ⟨st.chunkIndex, ?_⟩
      apply fold_arts_mono
      rw [hq]
      exact processWindow_has_part hrows
    · exact ih _ w hw tab rest hq hrows

/-- C9: a container-log row with empty namespace, pod and container never
reaches any stitch buffer, while every successful non-empty window writes
one part artifact that contains that window's full row list verbatim —
noise rows included. -/
theorem noise_rows_excluded_but_serialized (cfg : Config) (query : QueryFn)
    (table : String) (now : Int) (iso : String) :
    (∀ k x, x ∈ (exportTableData cfg query table now iso emptyBufs (fun _ => [])).logs k →
      ¬(x.ns = "" ∧ x.pod = "" ∧ x.cn = "")) ∧
    (∀ w ∈ planWindows now (resolveDuration cfg.timespan iso),
      ∀ (tab : TableResult) (rest : List TableResult),
        query table w = .ok (tab :: rest) → 0 < tab.rows.length →
        ∃ i, Artifact.part table i w.1 w.2 tab.cols tab.rows ∈
          (exportTableData cfg query table now iso emptyBufs (fun _ => [])).arts) := by
  constructor
  · unfold exportTableData
    dsimp only
    exact fold_noiseFree cfg table query _ ⟨[], 0, 0, emptyBufs, fun _ => []⟩
      (by intro k x hx; simp [emptyBufs] at hx)
  · intro w hw tab rest hq hrows
    obtain ⟨i, hi⟩ := fold_part_mem cfg table query
      (planWindows now (resolveDuration cfg.timespan iso))
      ⟨[], 0, 0, emptyBufs, fun _ => []⟩ w hw tab rest hq hrows
    refine ⟨i, ?_⟩
    unfold exportTableData
    dsimp only
    exact List.mem_append_left _ hi

def c9Cfg : Config := ⟨"", "PT15M", "", "", "", false, true, false, false, ""⟩

def c9Cols : List String :=
  ["TimeGenerated", "PodNamespace", "PodName", "ContainerName", "LogSource", "LogMessage"]

def c9NoiseRow : List JVal :=
  [.str "2024-01-01T00:05:00Z", .str "", .str "", .str "", .str "stdout", .str "noise"]

def c9GoodRow : List JVal :=
  [.str "2024-01-01T00:01:00Z", .str "ns1", .str "pod1", .str "c1", .str "stdout", .str "hi"]

def c9Tab : TableResult := ⟨c9Cols, [c9NoiseRow, c9GoodRow]⟩

def c9Query : QueryFn := fun _ _ => .ok [c9Tab]

theorem noise_rows_witness :
    ((0, 900000000000) ∈ planWindows 900000000000 (resolveDuration c9Cfg.timespan "PT15M")) ∧
    c9Query "ContainerLogV2" (0, 900000000000) = .ok (c9Tab :: []) ∧
    0 < c9Tab.rows.length ∧
    (exportTableData c9Cfg c9Query "ContainerLogV2" 900000000000 "PT15M"
      emptyBufs (fun _ => [])).logs ⟨"ns1", "pod1", "c1"⟩
      = [⟨"2024-01-01T00:01:00Z", "ns1", "pod1", "c1", "stdout", .str "hi"⟩] ∧
    (∀ k x, x ∈ (exportTableData c9Cfg c9Query "ContainerLogV2" 900000000000 "PT15M"
        emptyBufs (fun _ => [])).logs k → ¬(x.ns = "" ∧ x.pod = "" ∧ x.cn = "")) ∧
    (∃ i, Artifact.part "ContainerLogV2" i 0 900000000000 c9Tab.cols c9Tab.rows ∈
      (exportTableData c9Cfg c9Query "ContainerLogV2" 900000000000 "PT15M"
        emptyBufs (fun _ => [])).arts) :=
  ⟨by decide, rfl, by decide, by decide,
    (noise_rows_excluded_but_serialized c9Cfg c9Query "ContainerLogV2"
      900000000000 "PT15M").1,
    (noise_rows_excluded_but_serialized c9Cfg c9Query "ContainerLogV2"
      900000000000 "PT15M").2 (0, 900000000000) (by decide) c9Tab [] rfl (by decide)⟩
